import Mathlib

/-!
Verification of the core of cosmic-dirstat (src/analyze.rs and
src/gui/partition_view.rs) against its specification.

The Rust code is shallowly embedded:

* The filesystem seen by the scanner is an inductive tree `FSNode`.  Fallible
  operations of the real filesystem are modelled by explicit failure markers:
  `badEntry` stands for a directory entry whose `read_dir` item or `metadata`
  call fails, the `readable` flag of a directory stands for whether
  `std::fs::read_dir` succeeds on it, and the `linkOk` flag of a symlink
  stands for whether `std::fs::read_link` succeeds.
* `u64` sizes and counts become `Nat` (the scanned sums stay far below
  2^64, where Rust would wrap or panic; `Nat` subtraction is used where the
  code subtracts, and the claims carry the hypotheses that make the
  subtraction non-truncating, exactly as in the running program).
* `f64` geometry becomes exact rational arithmetic `ℚ`.  The float-to-`u64`
  `as` cast is modelled exactly (truncation towards zero, saturating);
  rounding of individual f64 operations is abstracted to exact arithmetic.
-/

/-- A filesystem tree as observed by the scanner, with explicit failure
markers for every fallible operation of `analyze_dir`. -/
inductive FSNode where
  /-- a directory entry whose `read_dir` item or `metadata()` call fails -/
  | badEntry : FSNode
  /-- a regular file: `blocks` (512-byte disk blocks used) and `nlink` -/
  | file (blocks nlink : Nat) : FSNode
  /-- a symlink: `linkOk` records whether `read_link` succeeds on it -/
  | symlink (blocks nlink : Nat) (linkOk : Bool) : FSNode
  /-- a directory: `readable` records whether `read_dir` succeeds on it -/
  | dir (readable : Bool) (entries : List FSNode) : FSNode

/-- `AnalyzedItem` from src/analyze.rs.  The `dir` variant carries the fields
of `AnalyzedDir` inline; `path` fields are dropped (they carry no
size/count information). -/
inductive AItem where
  | file (hardlink_count size : Nat) : AItem
  | symlink (hardlink_count size : Nat) : AItem
  | dir (children : List AItem) (size num_symlinks num_files num_dirs : Nat) : AItem

/-- `AnalyzedDir` from src/analyze.rs (minus `path`). -/
structure ADir where
  children : List AItem
  size : Nat
  num_symlinks : Nat
  num_files : Nat
  num_dirs : Nat

/-- `AnalyzedItem::size`. -/
def AItem.size : AItem → Nat
  | .file _ s => s
  | .symlink _ s => s
  | .dir _ s _ _ _ => s

/-- The view of a `dir` item as an `AnalyzedDir`. -/
def AItem.asDir : AItem → Option ADir
  | .dir c s ns nf nd => some ⟨c, s, ns, nf, nd⟩
  | _ => none

/-- The `children.sort_unstable_by_key(|b| Reverse(b.size()))` step of
`analyze_dir` (line 131): sort by non-increasing size.  Rust's unstable sort
and this merge sort produce the same result up to the order of equal-size
children, which the code and the claims never depend on. -/
def sortChildren (cs : List AItem) : List AItem :=
  cs.mergeSort (fun a b => decide (b.size ≤ a.size))

/-- Accumulator of the entry loop of `analyze_dir` (lines 66-129). -/
structure ScanAcc where
  children : List AItem
  num_symlinks : Nat
  num_files : Nat
  num_dirs : Nat

mutual

/-- `analyze_dir` from src/analyze.rs (lines 64-143).  `none` models the
`Err` return: it happens exactly when `std::fs::read_dir` on the argument
fails, i.e. when the argument is not a directory or is an unreadable one. -/
def analyzeDir : FSNode → Option ADir
  | .dir true entries =>
      let a := analyzeEntries entries
      let sorted := sortChildren a.children
      some ⟨sorted, (sorted.map AItem.size).sum, a.num_symlinks, a.num_files, a.num_dirs⟩
  | _ => none

/-- The `for entry in entries` loop of `analyze_dir` (lines 70-129), one
entry at a time.  Every failing entry is skipped (`continue` after an
`eprintln!` diagnostic); note that for a symlink whose target cannot be
read, the code has already executed `num_files += 1` (line 103) before the
failing `read_link` (line 106), so the skip still leaves that increment
behind — this is modelled faithfully. -/
def analyzeEntries : List FSNode → ScanAcc
  | [] => ⟨[], 0, 0, 0⟩
  | e :: rest =>
      let a := analyzeEntries rest
      match e with
      | .badEntry => a
      | .dir r es =>
          match analyzeDir (.dir r es) with
          | none => a
          | some d =>
              ⟨.dir d.children d.size d.num_symlinks d.num_files d.num_dirs :: a.children,
                a.num_symlinks + d.num_symlinks,
                a.num_files + d.num_files,
                a.num_dirs + (d.num_dirs + 1)⟩
      | .file blocks nlink =>
          ⟨.file nlink (blocks * 512 / nlink) :: a.children,
            a.num_symlinks, a.num_files + 1, a.num_dirs⟩
      | .symlink blocks nlink linkOk =>
          if linkOk then
            ⟨.symlink nlink (blocks * 512 / nlink) :: a.children,
              a.num_symlinks + 1, a.num_files + 1, a.num_dirs⟩
          else
            ⟨a.children, a.num_symlinks, a.num_files + 1, a.num_dirs⟩

end

example : analyzeDir (.dir true [.file 4 1, .file 8 2]) =
    some ⟨[.file 1 2048, .file 2 2048], 4096, 0, 2, 0⟩ := by
  simp [analyzeDir, analyzeEntries, sortChildren, List.mergeSort, AItem.size]

example : analyzeDir (.dir true [.file 1 1, .dir true [.symlink 2 1 true], .badEntry]) =
    some ⟨[.dir [.symlink 1 1024] 1024 1 1 0, .file 1 512], 1536, 1, 2, 1⟩ := by
  simp [analyzeDir, analyzeEntries, sortChildren, List.mergeSort, AItem.size]

/-! ### Recursive predicates and counts over the analyzed tree -/

mutual

/-- Size consistency at every directory level of an item's subtree:
each directory's `size` equals the sum of its children's sizes. -/
def AItem.sizeOk : AItem → Bool
  | .file _ _ => true
  | .symlink _ _ => true
  | .dir cs s _ _ _ => (s == (cs.map AItem.size).sum) && itemsSizeOk cs

/-- `AItem.sizeOk` for every item of a list. -/
def itemsSizeOk : List AItem → Bool
  | [] => true
  | a :: t => a.sizeOk && itemsSizeOk t

end

/-- Size consistency of an analyzed directory, at the root and at every
nested directory. -/
def ADir.sizeOk (d : ADir) : Bool :=
  (d.size == (d.children.map AItem.size).sum) && itemsSizeOk d.children

/-- The children list is sorted by non-increasing size (adjacent check). -/
def descBySize : List AItem → Bool
  | [] => true
  | [_] => true
  | a :: b :: t => decide (b.size ≤ a.size) && descBySize (b :: t)

mutual

/-- Children sorted by non-increasing size at every directory level of an
item's subtree. -/
def AItem.sortedOk : AItem → Bool
  | .file _ _ => true
  | .symlink _ _ => true
  | .dir cs _ _ _ _ => descBySize cs && itemsSortedOk cs

/-- `AItem.sortedOk` for every item of a list. -/
def itemsSortedOk : List AItem → Bool
  | [] => true
  | a :: t => a.sortedOk && itemsSortedOk t

end

/-- Sortedness of an analyzed directory, at the root and at every nested
directory. -/
def ADir.sortedOk (d : ADir) : Bool :=
  descBySize d.children && itemsSortedOk d.children

mutual

/-- Number of regular-file nodes in an item's subtree (the item itself
included when it is a file). -/
def AItem.fileCount : AItem → Nat
  | .file _ _ => 1
  | .symlink _ _ => 0
  | .dir cs _ _ _ _ => itemsFileCount cs

/-- Sum of `AItem.fileCount` over a list. -/
def itemsFileCount : List AItem → Nat
  | [] => 0
  | a :: t => a.fileCount + itemsFileCount t

end

mutual

/-- Number of symlink nodes in an item's subtree. -/
def AItem.symlinkCount : AItem → Nat
  | .file _ _ => 0
  | .symlink _ _ => 1
  | .dir cs _ _ _ _ => itemsSymlinkCount cs

/-- Sum of `AItem.symlinkCount` over a list. -/
def itemsSymlinkCount : List AItem → Nat
  | [] => 0
  | a :: t => a.symlinkCount + itemsSymlinkCount t

end

/-- Regular-file descendants of an analyzed directory. -/
def ADir.fileCountT (d : ADir) : Nat := itemsFileCount d.children

/-- Symlink descendants of an analyzed directory. -/
def ADir.symlinkCountT (d : ADir) : Nat := itemsSymlinkCount d.children

mutual

/-- Number of symlink entries that the scan skips because `read_link` fails
on them, over the part of the filesystem the scan actually visits (an
unreadable directory's subtree is never visited). -/
def FSNode.skippedSymlinks : FSNode → Nat
  | .badEntry => 0
  | .file _ _ => 0
  | .symlink _ _ ok => if ok then 0 else 1
  | .dir true es => skippedSymlinksList es
  | .dir false _ => 0

/-- Sum of `FSNode.skippedSymlinks` over a list of entries. -/
def skippedSymlinksList : List FSNode → Nat
  | [] => 0
  | e :: t => e.skippedSymlinks + skippedSymlinksList t

end

/-! ### Helper lemmas about sorting and list predicates -/

theorem sortChildren_perm (cs : List AItem) : (sortChildren cs).Perm cs :=
  List.mergeSort_perm cs _

theorem sortChildren_mem {a : AItem} {cs : List AItem} :
    a ∈ sortChildren cs ↔ a ∈ cs :=
  (sortChildren_perm cs).mem_iff

theorem sortChildren_sum_sizes (cs : List AItem) :
    ((sortChildren cs).map AItem.size).sum = (cs.map AItem.size).sum :=
  ((sortChildren_perm cs).map AItem.size).sum_eq

theorem itemsSizeOk_eq_all (cs : List AItem) :
    itemsSizeOk cs = cs.all AItem.sizeOk := by
  induction cs with
  | nil => rfl
  | cons a t ih => simp [itemsSizeOk, ih]

theorem itemsSortedOk_eq_all (cs : List AItem) :
    itemsSortedOk cs = cs.all AItem.sortedOk := by
  induction cs with
  | nil => rfl
  | cons a t ih => simp [itemsSortedOk, ih]

theorem itemsFileCount_eq_sum (cs : List AItem) :
    itemsFileCount cs = (cs.map AItem.fileCount).sum := by
  induction cs with
  | nil => rfl
  | cons a t ih => simp [itemsFileCount, ih]

theorem itemsSymlinkCount_eq_sum (cs : List AItem) :
    itemsSymlinkCount cs = (cs.map AItem.symlinkCount).sum := by
  induction cs with
  | nil => rfl
  | cons a t ih => simp [itemsSymlinkCount, ih]

theorem all_sortChildren (p : AItem → Bool) (cs : List AItem) :
    (sortChildren cs).all p = cs.all p := by
  apply Bool.eq_iff_iff.mpr
  simp only [List.all_eq_true]
  constructor <;> intro h a ha
  · exact h a (sortChildren_mem.mpr ha)
  · exact h a (sortChildren_mem.mp ha)

theorem itemsFileCount_sortChildren (cs : List AItem) :
    itemsFileCount (sortChildren cs) = itemsFileCount cs := by
  rw [itemsFileCount_eq_sum, itemsFileCount_eq_sum]
  exact ((sortChildren_perm cs).map AItem.fileCount).sum_eq

theorem itemsSymlinkCount_sortChildren (cs : List AItem) :
    itemsSymlinkCount (sortChildren cs) = itemsSymlinkCount cs := by
  rw [itemsSymlinkCount_eq_sum, itemsSymlinkCount_eq_sum]
  exact ((sortChildren_perm cs).map AItem.symlinkCount).sum_eq

theorem descBySize_of_pairwise :
    ∀ cs : List AItem, List.Pairwise (fun a b => b.size ≤ a.size) cs →
      descBySize cs = true
  | [], _ => rfl
  | [_], _ => rfl
  | a :: b :: t, h => by
      rw [List.pairwise_cons] at h
      simp only [descBySize, Bool.and_eq_true, decide_eq_true_eq]
      exact ⟨h.1 b (List.mem_cons_self b t), descBySize_of_pairwise (b :: t) h.2⟩

theorem descBySize_sortChildren (cs : List AItem) :
    descBySize (sortChildren cs) = true := by
  apply descBySize_of_pairwise
  have h := @List.sorted_mergeSort AItem
    (fun (a b : AItem) => decide (b.size ≤ a.size))
    (fun a b c hab hbc => by
      simp only [decide_eq_true_eq] at *; omega)
    (fun a b => by
      simp only [Bool.or_eq_true, decide_eq_true_eq]; omega)
    cs
  exact h.imp (fun hab => by simpa using hab)

/-! ### Decomposition of the entry loop -/

/-- The child that a single loop iteration of `analyze_dir` contributes to
`children`, if any (`none` : the entry is skipped). -/
def entryItem : FSNode → Option AItem
  | .badEntry => none
  | .dir r es => (analyzeDir (.dir r es)).map
      (fun d => .dir d.children d.size d.num_symlinks d.num_files d.num_dirs)
  | .file b n => some (.file n (b * 512 / n))
  | .symlink b n ok => if ok then some (.symlink n (b * 512 / n)) else none

theorem analyzeEntries_children (es : List FSNode) :
    (analyzeEntries es).children = es.filterMap entryItem := by
  induction es with
  | nil => rfl
  | cons e rest ih =>
      cases e with
      | badEntry => simp [analyzeEntries, entryItem, List.filterMap_cons, ih]
      | dir r es' =>
          simp only [analyzeEntries, List.filterMap_cons, entryItem]
          cases h : analyzeDir (.dir r es') <;> simp [h, ih]
      | file b n => simp [analyzeEntries, entryItem, List.filterMap_cons, ih]
      | symlink b n ok =>
          cases ok <;> simp [analyzeEntries, entryItem, List.filterMap_cons, ih]

/-! ### Size consistency (mutual induction over the scan) -/

mutual

theorem analyzeDir_sizeOk : ∀ (fs : FSNode) (d : ADir),
    analyzeDir fs = some d → d.sizeOk = true
  | .badEntry, d, h => by simp [analyzeDir] at h
  | .file _ _, d, h => by simp [analyzeDir] at h
  | .symlink _ _ _, d, h => by simp [analyzeDir] at h
  | .dir false _, d, h => by simp [analyzeDir] at h
  | .dir true es, d, h => by
      have he := analyzeEntries_sizeOk es
      simp only [analyzeDir, Option.some.injEq] at h
      subst h
      simp only [ADir.sizeOk, beq_self_eq_true, Bool.true_and]
      rw [itemsSizeOk_eq_all, all_sortChildren, ← itemsSizeOk_eq_all]
      exact he

theorem analyzeEntries_sizeOk : ∀ es : List FSNode,
    itemsSizeOk (analyzeEntries es).children = true
  | [] => rfl
  | e :: rest => by
      have ih := analyzeEntries_sizeOk rest
      cases e with
      | badEntry => simpa [analyzeEntries] using ih
      | file b n => simp [analyzeEntries, itemsSizeOk, AItem.sizeOk, ih]
      | symlink b n ok =>
          cases ok <;> simp [analyzeEntries, itemsSizeOk, AItem.sizeOk, ih]
      | dir r es' =>
          cases h : analyzeDir (.dir r es') with
          | none => simp [analyzeEntries, h, ih]
          | some d =>
              have hd := analyzeDir_sizeOk (.dir r es') d h
              simp only [ADir.sizeOk, Bool.and_eq_true] at hd
              simp [analyzeEntries, h, itemsSizeOk, AItem.sizeOk, ih, hd.1, hd.2]

end

/-! ### Sortedness (mutual induction over the scan) -/

mutual

theorem analyzeDir_sortedOk : ∀ (fs : FSNode) (d : ADir),
    analyzeDir fs = some d → d.sortedOk = true
  | .badEntry, d, h => by simp [analyzeDir] at h
  | .file _ _, d, h => by simp [analyzeDir] at h
  | .symlink _ _ _, d, h => by simp [analyzeDir] at h
  | .dir false _, d, h => by simp [analyzeDir] at h
  | .dir true es, d, h => by
      have he := analyzeEntries_sortedOk es
      simp only [analyzeDir, Option.some.injEq] at h
      subst h
      simp only [ADir.sortedOk, Bool.and_eq_true]
      refine ⟨descBySize_sortChildren _, ?_⟩
      rw [itemsSortedOk_eq_all, all_sortChildren, ← itemsSortedOk_eq_all]
      exact he

theorem analyzeEntries_sortedOk : ∀ es : List FSNode,
    itemsSortedOk (analyzeEntries es).children = true
  | [] => rfl
  | e :: rest => by
      have ih := analyzeEntries_sortedOk rest
      cases e with
      | badEntry => simpa [analyzeEntries] using ih
      | file b n => simp [analyzeEntries, itemsSortedOk, AItem.sortedOk, ih]
      | symlink b n ok =>
          cases ok <;> simp [analyzeEntries, itemsSortedOk, AItem.sortedOk, ih]
      | dir r es' =>
          cases h : analyzeDir (.dir r es') with
          | none => simp [analyzeEntries, h, ih]
          | some d =>
              have hd := analyzeDir_sortedOk (.dir r es') d h
              simp only [ADir.sortedOk, Bool.and_eq_true] at hd
              simp [analyzeEntries, h, itemsSortedOk, AItem.sortedOk, ih, hd.1, hd.2]

end

/-! ### File counting, including the skipped-symlink leak
(mutual induction over the scan) -/

mutual

theorem analyzeDir_numFiles : ∀ (fs : FSNode) (d : ADir),
    analyzeDir fs = some d →
    d.num_files = itemsFileCount d.children + itemsSymlinkCount d.children
      + fs.skippedSymlinks
  | .badEntry, d, h => by simp [analyzeDir] at h
  | .file _ _, d, h => by simp [analyzeDir] at h
  | .symlink _ _ _, d, h => by simp [analyzeDir] at h
  | .dir false _, d, h => by simp [analyzeDir] at h
  | .dir true es, d, h => by
      have he := analyzeEntries_numFiles es
      simp only [analyzeDir, Option.some.injEq] at h
      subst h
      simpa [FSNode.skippedSymlinks, itemsFileCount_sortChildren,
        itemsSymlinkCount_sortChildren] using he

theorem analyzeEntries_numFiles : ∀ es : List FSNode,
    (analyzeEntries es).num_files =
      itemsFileCount (analyzeEntries es).children
        + itemsSymlinkCount (analyzeEntries es).children
        + skippedSymlinksList es
  | [] => rfl
  | e :: rest => by
      have ih := analyzeEntries_numFiles rest
      cases e with
      | badEntry =>
          simpa [analyzeEntries, skippedSymlinksList, FSNode.skippedSymlinks] using ih
      | file b n =>
          simp [analyzeEntries, itemsFileCount, itemsSymlinkCount, AItem.fileCount,
            AItem.symlinkCount, skippedSymlinksList, FSNode.skippedSymlinks, ih]
          omega
      | symlink b n ok =>
          cases ok <;>
            (simp [analyzeEntries, itemsFileCount, itemsSymlinkCount, AItem.fileCount,
              AItem.symlinkCount, skippedSymlinksList, FSNode.skippedSymlinks, ih]; omega)
      | dir r es' =>
          cases r with
          | false =>
              simpa [analyzeEntries, analyzeDir, skippedSymlinksList,
                FSNode.skippedSymlinks] using ih
          | true =>
              cases h : analyzeDir (.dir true es') with
              | none => simp [analyzeDir] at h
              | some d =>
                  have hd := analyzeDir_numFiles (.dir true es') d h
                  simp only [analyzeDir, Option.some.injEq] at h
                  subst h
                  simp only [analyzeEntries, analyzeDir, itemsFileCount, itemsSymlinkCount,
                    AItem.fileCount, AItem.symlinkCount, skippedSymlinksList] at hd ⊢
                  omega

end

/-! ### Per-entry failure handling -/

theorem analyzeDir_isSome_iff (fs : FSNode) :
    (analyzeDir fs).isSome = true ↔ ∃ es, fs = FSNode.dir true es := by
  cases fs with
  | badEntry => simp [analyzeDir]
  | file b n => simp [analyzeDir]
  | symlink b n o => simp [analyzeDir]
  | dir r es => cases r <;> simp [analyzeDir]

/-- The body of one iteration of the entry loop, as a function of the
accumulator (used to reason about the loop one entry at a time; proven
equal to the step of `analyzeEntries` below). -/
def scanStep (e : FSNode) (a : ScanAcc) : ScanAcc :=
  match e with
  | .badEntry => a
  | .dir r es =>
      match analyzeDir (.dir r es) with
      | none => a
      | some d =>
          ⟨.dir d.children d.size d.num_symlinks d.num_files d.num_dirs :: a.children,
            a.num_symlinks + d.num_symlinks,
            a.num_files + d.num_files,
            a.num_dirs + (d.num_dirs + 1)⟩
  | .file blocks nlink =>
      ⟨.file nlink (blocks * 512 / nlink) :: a.children,
        a.num_symlinks, a.num_files + 1, a.num_dirs⟩
  | .symlink blocks nlink linkOk =>
      if linkOk then
        ⟨.symlink nlink (blocks * 512 / nlink) :: a.children,
          a.num_symlinks + 1, a.num_files + 1, a.num_dirs⟩
      else
        ⟨a.children, a.num_symlinks, a.num_files + 1, a.num_dirs⟩

theorem analyzeEntries_cons (e : FSNode) (rest : List FSNode) :
    analyzeEntries (e :: rest) = scanStep e (analyzeEntries rest) := by
  cases e <;> simp [analyzeEntries, scanStep]

theorem analyzeEntries_cons_congr (p : FSNode) {r1 r2 : List FSNode}
    (h : analyzeEntries r1 = analyzeEntries r2) :
    analyzeEntries (p :: r1) = analyzeEntries (p :: r2) := by
  rw [analyzeEntries_cons, analyzeEntries_cons, h]

theorem analyzeEntries_skip_badEntry (pre post : List FSNode) :
    analyzeEntries (pre ++ FSNode.badEntry :: post) = analyzeEntries (pre ++ post) := by
  induction pre with
  | nil => simp [analyzeEntries]
  | cons p t ih => exact analyzeEntries_cons_congr p ih

theorem analyzeEntries_skip_unreadable_dir (pre post : List FSNode) (es : List FSNode) :
    analyzeEntries (pre ++ FSNode.dir false es :: post) = analyzeEntries (pre ++ post) := by
  induction pre with
  | nil => simp [analyzeEntries, analyzeDir]
  | cons p t ih => exact analyzeEntries_cons_congr p ih

theorem analyzeEntries_skip_bad_symlink_children (pre post : List FSNode) (b n : Nat) :
    (analyzeEntries (pre ++ FSNode.symlink b n false :: post)).children =
    (analyzeEntries (pre ++ post)).children := by
  rw [analyzeEntries_children, analyzeEntries_children]
  simp [List.filterMap_append, List.filterMap_cons, entryItem]

theorem analyzeDir_mem_children {x : FSNode} {it : AItem} (pre post : List FSNode)
    {d : ADir} (h : analyzeDir (.dir true (pre ++ x :: post)) = some d)
    (hx : entryItem x = some it) : it ∈ d.children := by
  simp only [analyzeDir, Option.some.injEq] at h
  subst h
  apply sortChildren_mem.mpr
  rw [analyzeEntries_children]
  simp [List.filterMap_append, List.filterMap_cons, hx]

/-! ### Claim theorems about the scanner -/

/-- A default analyzed directory, used only to extract the payload of a
scan result that is known to be `some`. -/
def adDefault : ADir := ⟨[], 0, 0, 0, 0⟩

/-- C1: for every directory node returned by a successful scan, the node's
size equals the sum of its children's sizes, and this holds at every level
of the returned tree (no metadata overhead of the directory itself is ever
added). -/
theorem claim1_scan_sizes_consistent (fs : FSNode) (d : ADir)
    (h : analyzeDir fs = some d) :
    d.size = (d.children.map AItem.size).sum ∧ d.sizeOk = true := by
  have hs := analyzeDir_sizeOk fs d h
  refine ⟨?_, hs⟩
  simp only [ADir.sizeOk, Bool.and_eq_true, beq_iff_eq] at hs
  exact hs.1

def fsEx1 : FSNode := .dir true [.file 4 1, .dir true [.file 8 2, .symlink 2 1 true], .badEntry]

theorem claim1_scan_sizes_consistent_witness :
    ((analyzeDir fsEx1).getD adDefault).size =
      ((((analyzeDir fsEx1).getD adDefault)).children.map AItem.size).sum ∧
    ((analyzeDir fsEx1).getD adDefault).sizeOk = true := by
  apply claim1_scan_sizes_consistent fsEx1
  simp [fsEx1, analyzeDir, analyzeEntries, sortChildren, List.mergeSort, AItem.size]

/-- C6: the scan returns an error exactly when the root itself cannot be
listed as a directory; a failing entry (unreadable entry/metadata, failed
listing of a subdirectory, unreadable symlink target) only causes that one
entry to be skipped while the scan of the remaining entries proceeds
unchanged and a tree is still returned. -/
theorem claim6_error_only_at_root :
    (∀ fs : FSNode, (analyzeDir fs).isSome = true ↔ ∃ es, fs = FSNode.dir true es)
    ∧ (∀ pre post, analyzeEntries (pre ++ FSNode.badEntry :: post) =
        analyzeEntries (pre ++ post))
    ∧ (∀ pre post es, analyzeEntries (pre ++ FSNode.dir false es :: post) =
        analyzeEntries (pre ++ post))
    ∧ (∀ pre post b n, (analyzeEntries (pre ++ FSNode.symlink b n false :: post)).children =
        (analyzeEntries (pre ++ post)).children) :=
  ⟨analyzeDir_isSome_iff, analyzeEntries_skip_badEntry,
    fun pre post es => analyzeEntries_skip_unreadable_dir pre post es,
    fun pre post b n => analyzeEntries_skip_bad_symlink_children pre post b n⟩

/-- C7: every scanned regular-file or symlink entry is recorded with
`size = blocks * 512 / hardlink_count`; in particular both entries of a
file hardlinked twice each record exactly half of the file's total block
usage `blocks * 512`. -/
theorem claim7_hardlink_size :
    (∀ b n pre post d, analyzeDir (.dir true (pre ++ FSNode.file b n :: post)) = some d →
        AItem.file n (b * 512 / n) ∈ d.children)
    ∧ (∀ b n pre post d,
        analyzeDir (.dir true (pre ++ FSNode.symlink b n true :: post)) = some d →
        AItem.symlink n (b * 512 / n) ∈ d.children)
    ∧ (∀ b d, analyzeDir (.dir true [FSNode.file b 2, FSNode.file b 2]) = some d →
        ∀ c ∈ d.children, c = AItem.file 2 (b * 512 / 2) ∧ (b * 512 / 2) * 2 = b * 512) := by
  refine ⟨?_, ?_, ?_⟩
  · intro b n pre post d h
    exact analyzeDir_mem_children pre post h rfl
  · intro b n pre post d h
    exact analyzeDir_mem_children pre post h (by simp [entryItem])
  · intro b d h c hc
    simp only [analyzeDir, Option.some.injEq] at h
    subst h
    have hmem := sortChildren_mem.mp hc
    rw [analyzeEntries_children] at hmem
    simp only [List.filterMap_cons, entryItem, List.filterMap_nil] at hmem
    simp only [List.mem_cons, List.not_mem_nil, or_false] at hmem
    have harith : b * 512 / 2 * 2 = b * 512 := by omega
    rcases hmem with h1 | h1 <;> exact ⟨h1, harith⟩

def fsEx7 : FSNode := .dir true [.file 3 2]

theorem claim7_hardlink_size_witness :
    AItem.file 2 (3 * 512 / 2) ∈ ((analyzeDir fsEx7).getD adDefault).children := by
  apply claim7_hardlink_size.1 3 2 [] [] ((analyzeDir fsEx7).getD adDefault)
  simp [fsEx7, analyzeDir, analyzeEntries, sortChildren, List.mergeSort]

/-- C8 (code bug evidence): a directory containing a single symlink whose
target cannot be read yields a tree with no children at all, yet
`num_files = 1`: the skipped entry still contributed to the file count
because `num_files += 1` (line 103) runs before the failing `read_link`
(line 106). -/
theorem claim8_skipped_symlink_still_counted :
    analyzeDir (.dir true [.symlink 0 1 false]) = some ⟨[], 0, 0, 1, 0⟩ := by
  simp [analyzeDir, analyzeEntries, sortChildren, List.mergeSort]

/-- C9: the children of every directory node returned by the scan are
sorted by non-increasing size, at every level of the returned tree. -/
theorem claim9_children_sorted (fs : FSNode) (d : ADir)
    (h : analyzeDir fs = some d) : d.sortedOk = true :=
  analyzeDir_sortedOk fs d h

def fsEx9 : FSNode := .dir true [.file 1 2, .dir true [.file 9 1], .file 20 1]

theorem claim9_children_sorted_witness :
    ((analyzeDir fsEx9).getD adDefault).sortedOk = true := by
  apply claim9_children_sorted fsEx9
  simp [fsEx9, analyzeDir, analyzeEntries, sortChildren, List.mergeSort, AItem.size]

/-- C10 (counterexample): `num_files` is not always the number of
regular-file descendants plus symlink descendants of the returned tree: a
directory with one readable file and one symlink whose target cannot be
read reports `num_files = 2` although the returned tree has just one file
descendant and no symlink descendant. -/
theorem claim10_counterexample :
    ¬ (((analyzeDir (.dir true [.file 1 1, .symlink 0 1 false])).getD adDefault).num_files =
      ((analyzeDir (.dir true [.file 1 1, .symlink 0 1 false])).getD adDefault).fileCountT +
      ((analyzeDir (.dir true [.file 1 1, .symlink 0 1 false])).getD adDefault).symlinkCountT) := by
  simp [analyzeDir, analyzeEntries, sortChildren, List.mergeSort, ADir.fileCountT,
    ADir.symlinkCountT, itemsFileCount, itemsSymlinkCount, AItem.fileCount,
    AItem.symlinkCount, adDefault]

/-- C10 (amended): every successfully read symlink entry increments both
the file count and the symlink count, so `num_files` equals the number of
regular-file descendants plus the number of symlink descendants of the
returned tree, plus the number of entries that were skipped because their
symlink target could not be read (such an entry still increments
`num_files` before the failing `read_link`). -/
theorem claim10_file_count_amended :
    (∀ b n rest, (analyzeEntries (FSNode.symlink b n true :: rest)).num_files =
        (analyzeEntries rest).num_files + 1 ∧
      (analyzeEntries (FSNode.symlink b n true :: rest)).num_symlinks =
        (analyzeEntries rest).num_symlinks + 1)
    ∧ (∀ fs d, analyzeDir fs = some d →
        d.num_files = d.fileCountT + d.symlinkCountT + fs.skippedSymlinks) := by
  constructor
  · intro b n rest
    constructor <;> simp [analyzeEntries]
  · intro fs d h
    exact analyzeDir_numFiles fs d h

def fsEx10 : FSNode := .dir true [.file 1 1, .symlink 0 1 false, .symlink 2 1 true]

theorem claim10_file_count_amended_witness :
    ((analyzeDir fsEx10).getD adDefault).num_files =
      ((analyzeDir fsEx10).getD adDefault).fileCountT +
      ((analyzeDir fsEx10).getD adDefault).symlinkCountT + fsEx10.skippedSymlinks := by
  apply claim10_file_count_amended.2 fsEx10
  simp [fsEx10, analyzeDir, analyzeEntries, sortChildren, List.mergeSort]

/-! ### Geometry: rectangles over exact rationals

`treemap::Rect` carries f64 coordinates; they are embedded as `ℚ`.  A
rectangle denotes the half-open point set `[x, x+w) × [y, y+h)`, which makes
exact tiling (no gaps, no overlaps) a plain statement about sets. -/

/-- `treemap::Rect` (x, y, width, height). -/
structure Rect where
  x : ℚ
  y : ℚ
  w : ℚ
  h : ℚ

/-- Area of a rectangle. -/
def Rect.area (r : Rect) : ℚ := r.w * r.h

/-- The half-open point set of a rectangle. -/
def Rect.pts (r : Rect) : Set (ℚ × ℚ) :=
  {p | r.x ≤ p.1 ∧ p.1 < r.x + r.w ∧ r.y ≤ p.2 ∧ p.2 < r.y + r.h}

/-- Two rectangles do not overlap. -/
def RectDisjoint (a b : Rect) : Prop :=
  ∀ p : ℚ × ℚ, p ∈ a.pts → p ∈ b.pts → False

/-- Union of the point sets of a list of rectangles. -/
def cover : List Rect → Set (ℚ × ℚ)
  | [] => ∅
  | r :: t => r.pts ∪ cover t

/-! ### Squarified layout, modelled from the spec

The Rust code delegates the geometric layout to the external treemap
crate (`TreemapLayout::layout_items`).  That crate is not part of this
repository, so the layout is modelled from the spec (section 4.2 step 4):
lay out successive rows along the shorter axis of the remaining rectangle,
greedily adding items to the current row while the worst aspect ratio in
the row would improve; every slot receives a bounds rectangle and the
rectangles exactly tile the box. -/

/-- Vertical stack of rectangles of common width `t` at abscissa `x`,
one rectangle of height `e` per extent in the list, starting at ordinate
`y0`. -/
def stackV (x t : ℚ) : ℚ → List ℚ → List Rect
  | _, [] => []
  | y0, e :: es => ⟨x, y0, t, e⟩ :: stackV x t (y0 + e) es

/-- Horizontal stack of rectangles of common height `t` at ordinate `y`,
one rectangle of width `e` per extent in the list, starting at abscissa
`x0`. -/
def stackH (y t : ℚ) : ℚ → List ℚ → List Rect
  | _, [] => []
  | x0, e :: es => ⟨x0, y, e, t⟩ :: stackH y t (x0 + e) es

/-- Lay one row of item areas into the rectangle `r`: a strip against the
shorter side of `r`, of thickness `row.sum / side`, subdivided
proportionally; returns the row's rectangles and the remaining rectangle. -/
def layRow (row : List ℚ) (r : Rect) : List Rect × Rect :=
  if r.h ≤ r.w then
    let t := row.sum / r.h
    (stackV r.x t r.y (row.map (fun a => a / t)), ⟨r.x + t, r.y, r.w - t, r.h⟩)
  else
    let t := row.sum / r.w
    (stackH r.y t r.x (row.map (fun a => a / t)), ⟨r.x, r.y + t, r.w, r.h - t⟩)

/-- Worst (largest) aspect ratio among the rectangles a row of areas would
get in a strip against a side of length `s`. -/
def worst (s : ℚ) (row : List ℚ) : ℚ :=
  (row.map (fun a => max ((row.sum / s) / (a / (row.sum / s)))
    ((a / (row.sum / s)) / (row.sum / s)))).foldr max 0

/-- Greedy row selection: keep adding the next area to the current row
while the worst aspect ratio in the row would not degrade. -/
def pickRowAux (s : ℚ) : List ℚ → List ℚ → List ℚ × List ℚ
  | row, [] => (row, [])
  | row, a :: rest =>
      if worst s (row ++ [a]) ≤ worst s row then pickRowAux s (row ++ [a]) rest
      else (row, a :: rest)

theorem pickRowAux_append (s : ℚ) :
    ∀ (rest row : List ℚ),
      (pickRowAux s row rest).1 ++ (pickRowAux s row rest).2 = row ++ rest
  | [], row => by simp [pickRowAux]
  | a :: rest, row => by
      simp only [pickRowAux]
      by_cases hc : worst s (row ++ [a]) ≤ worst s row
      · simp only [if_pos hc]
        rw [pickRowAux_append s rest (row ++ [a])]
        simp
      · simp [if_neg hc]

theorem pickRowAux_fst_prefix (s : ℚ) :
    ∀ (rest row : List ℚ), ∃ ext, (pickRowAux s row rest).1 = row ++ ext
  | [], row => ⟨[], by simp [pickRowAux]⟩
  | a :: rest, row => by
      simp only [pickRowAux]
      by_cases hc : worst s (row ++ [a]) ≤ worst s row
      · simp only [if_pos hc]
        obtain ⟨ext, he⟩ := pickRowAux_fst_prefix s rest (row ++ [a])
        exact ⟨a :: ext, by simp [he]⟩
      · exact ⟨[], by simp [if_neg hc]⟩

theorem pickRowAux_snd_length (s : ℚ) :
    ∀ (rest row : List ℚ), (pickRowAux s row rest).2.length ≤ rest.length
  | [], row => by simp [pickRowAux]
  | a :: rest, row => by
      simp only [pickRowAux]
      by_cases hc : worst s (row ++ [a]) ≤ worst s row
      · simp only [if_pos hc]
        have := pickRowAux_snd_length s rest (row ++ [a])
        simp only [List.length_cons]
        omega
      · simp [if_neg hc]

/-- Squarified layout: repeatedly pick a greedy row and lay it against the
shorter side of the remaining rectangle. -/
def squarify : List ℚ → Rect → List Rect
  | [], _ => []
  | a :: rest, r =>
      let pr := pickRowAux (min r.w r.h) [a] rest
      let lr := layRow pr.1 r
      lr.1 ++ squarify pr.2 lr.2
termination_by areas _ => areas.length
decreasing_by
  have := pickRowAux_snd_length (min r.w r.h) rest [a]
  simp only [List.length_cons]
  omega

/-! ### The partitioner (src/analyze.rs, lines 145-199) -/

/-- `PartitionElement` from src/analyze.rs: `placement` (the bounds set by
the layout), `size` (the weight), and `item` (`none` marks the synthetic
aggregate slot). -/
structure PartitionElement where
  placement : Rect
  size : Nat
  item : Option AItem

/-- Modelled from the spec: `TreemapLayout::layout_items` of the external
treemap crate (not part of this repository), which the spec describes in
section 4.2 step 4 — each slot's area is its weight's share
`weight / total * box area`, and the squarified layout assigns each slot
its bounds in order, leaving sizes and item references untouched. -/
def layoutItems (items : List PartitionElement) (bounds : Rect) : List PartitionElement :=
  let total : ℚ := (items.map (fun i => (i.size : ℚ))).sum
  let areas := items.map (fun i => (i.size : ℚ) / total * bounds.area)
  (items.zip (squarify areas bounds)).map (fun p => ⟨p.2, p.1.size, p.1.item⟩)

/-- Largest value of `u64`. -/
def U64MAX : Nat := 2 ^ 64 - 1

/-- The Rust `as u64` cast from f64: truncation towards zero, saturating at
0 and `u64::MAX` (on a rational, i.e. finite, value). -/
def ratToU64 (q : ℚ) : Nat := min (max 0 ⌊q⌋).toNat U64MAX

/-- The `min_area` computation of `partition` (lines 165-166):
`scale = dir.size as f64 / (space.0 * space.1)` and
`min_area = (min * scale) as u64`.  Division is exact rational division
when the box area is nonzero.  A zero box area makes the f64 `scale`
infinite (or NaN when the size is also 0); the `as u64` cast then yields
`u64::MAX` for a positive product, and 0 for a NaN or negative product,
which the first branch reproduces (signed zeros are not distinguished). -/
def minAreaOf (w h m : ℚ) (size : Nat) : Nat :=
  if w * h = 0 then
    if size = 0 then 0
    else if 0 < m then U64MAX
    else 0
  else ratToU64 (m * ((size : ℚ) / (w * h)))

/-- The slot list that `partition` builds before the layout call (lines
165-190): `end_index` is the first index whose size falls below `min_area`
(the `find` over the enumerated children); the children before it get
individual slots and `accum` is the sum of their sizes; if `end_index`
exists, one synthetic aggregate slot of weight `dir.size - accum` and no
item reference is appended.  `treemap::Rect::default()` is `(0,0,0,0)`. -/
def partItems (w h m : ℚ) (dir : ADir) : List PartitionElement :=
  let min_area := minAreaOf w h m dir.size
  let end_index := dir.children.findIdx? (fun f => decide (f.size < min_area))
  let kept := dir.children.take (end_index.getD dir.children.length)
  let indiv : List PartitionElement := kept.map (fun e => ⟨⟨0, 0, 0, 0⟩, e.size, some e⟩)
  let accum := (kept.map AItem.size).sum
  if end_index.isSome
    then indiv ++ [⟨⟨0, 0, 0, 0⟩, dir.size - accum, none⟩]
    else indiv

/-- `partition` from src/analyze.rs (lines 164-199): build the slot list,
then lay it out in the box `Rect::from_points(0.0, 0.0, space.0, space.1)`. -/
def partition (w h m : ℚ) (dir : ADir) : List PartitionElement :=
  layoutItems (partItems w h m dir) ⟨0, 0, w, h⟩

/-! ### Structural facts about the layout -/

theorem stackV_length (x t : ℚ) : ∀ (y0 : ℚ) (es : List ℚ),
    (stackV x t y0 es).length = es.length
  | _, [] => rfl
  | y0, e :: es => by simp [stackV, stackV_length x t (y0 + e) es]

theorem stackH_length (y t : ℚ) : ∀ (x0 : ℚ) (es : List ℚ),
    (stackH y t x0 es).length = es.length
  | _, [] => rfl
  | x0, e :: es => by simp [stackH, stackH_length y t (x0 + e) es]

theorem layRow_fst_length (row : List ℚ) (r : Rect) :
    (layRow row r).1.length = row.length := by
  rw [layRow]
  by_cases hc : r.h ≤ r.w <;>
    simp [hc, stackV_length, stackH_length]

theorem squarify_length : ∀ (areas : List ℚ) (r : Rect),
    (squarify areas r).length = areas.length
  | [], r => by rw [squarify]; rfl
  | a :: rest, r => by
      rw [squarify]
      have hlen := squarify_length (pickRowAux (min r.w r.h) [a] rest).2
        (layRow (pickRowAux (min r.w r.h) [a] rest).1 r).2
      have happ := pickRowAux_append (min r.w r.h) rest [a]
      simp only [List.length_append, layRow_fst_length, hlen]
      have := congrArg List.length happ
      simp only [List.length_append, List.length_cons, List.length_nil] at this ⊢
      omega
termination_by areas _ => areas.length
decreasing_by
  have := pickRowAux_snd_length (min r.w r.h) rest [a]
  simp only [List.length_cons]
  omega

theorem layoutItems_map_size_item (items : List PartitionElement) (bounds : Rect) :
    (layoutItems items bounds).map (fun s => (s.size, s.item)) =
    items.map (fun s => (s.size, s.item)) := by
  rw [layoutItems]
  have hlen : items.length ≤ (squarify (items.map (fun i => (i.size : ℚ) /
      ((items.map (fun i => (i.size : ℚ))).sum) * bounds.area)) bounds).length := by
    rw [squarify_length, List.length_map]
  rw [List.map_map]
  have h1 : ((fun s : PartitionElement => (s.size, s.item)) ∘
      (fun p : PartitionElement × Rect =>
        (⟨p.2, p.1.size, p.1.item⟩ : PartitionElement))) =
      ((fun s : PartitionElement => (s.size, s.item)) ∘ Prod.fst) := rfl
  rw [h1, ← List.map_map, List.map_fst_zip _ _ hlen]

theorem layoutItems_length (items : List PartitionElement) (bounds : Rect) :
    (layoutItems items bounds).length = items.length := by
  rw [layoutItems]
  simp [List.length_zip, squarify_length]

theorem partItems_of_none {w h m : ℚ} {dir : ADir}
    (hn : dir.children.findIdx? (fun f => decide (f.size < minAreaOf w h m dir.size)) = none) :
    partItems w h m dir = dir.children.map (fun e => ⟨⟨0, 0, 0, 0⟩, e.size, some e⟩) := by
  simp [partItems, hn]

theorem partItems_of_some {w h m : ℚ} {dir : ADir} {i : Nat}
    (hs : dir.children.findIdx? (fun f => decide (f.size < minAreaOf w h m dir.size)) = some i) :
    partItems w h m dir =
      (dir.children.take i).map (fun e => ⟨⟨0, 0, 0, 0⟩, e.size, some e⟩) ++
        [⟨⟨0, 0, 0, 0⟩, dir.size - ((dir.children.take i).map AItem.size).sum, none⟩] := by
  simp [partItems, hs]

theorem take_drop_size_split (cs : List AItem) (i : Nat) :
    ((cs.take i).map AItem.size).sum + ((cs.drop i).map AItem.size).sum =
      (cs.map AItem.size).sum := by
  rw [← List.sum_append, ← List.map_append, List.take_append_drop]

/-- C2: the threshold is `min_area = (min_fraction_area * (size / box area))
as u64`; the first index whose size falls below it cuts the children: all
earlier children get individual slots referencing them, and exactly when
such an index exists one aggregate slot with no item reference is appended,
whose weight is `size - accum`, which equals the sum of the excluded
children's sizes; with no index below the threshold all children get
individual slots and nothing is appended. -/
theorem claim2_minimum_area_cutoff (w h m : ℚ) (dir : ADir)
    (hsz : dir.size = (dir.children.map AItem.size).sum) :
    (dir.children.findIdx? (fun f => decide (f.size < minAreaOf w h m dir.size)) = none →
      (∀ c ∈ dir.children, ¬ (c.size < minAreaOf w h m dir.size)) ∧
      (partition w h m dir).map (fun s => (s.size, s.item)) =
        dir.children.map (fun c => (c.size, some c)))
    ∧ (∀ i, dir.children.findIdx? (fun f => decide (f.size < minAreaOf w h m dir.size)) = some i →
      (∀ j (hj : j < i) (hj2 : j < dir.children.length),
        ¬ ((dir.children.get ⟨j, hj2⟩).size < minAreaOf w h m dir.size)) ∧
      (∃ hlt : i < dir.children.length,
        (dir.children.get ⟨i, hlt⟩).size < minAreaOf w h m dir.size) ∧
      ((partition w h m dir).map (fun s => (s.size, s.item)) =
        (dir.children.take i).map (fun c => (c.size, some c)) ++
          [(dir.size - ((dir.children.take i).map AItem.size).sum, none)]) ∧
      dir.size - ((dir.children.take i).map AItem.size).sum =
        ((dir.children.drop i).map AItem.size).sum) := by
  constructor
  · intro hn
    constructor
    · intro c hc
      have := List.findIdx?_eq_none_iff.mp hn c hc
      simpa using this
    · rw [partition, layoutItems_map_size_item, partItems_of_none hn, List.map_map]
      rfl
  · intro i hs
    obtain ⟨hlen, hfi⟩ := List.findIdx?_eq_some_iff_findIdx_eq.mp hs
    subst hfi
    refine ⟨?_, ?_, ?_, ?_⟩
    · intro j hj hj2
      have := List.not_of_lt_findIdx hj
      simp only [List.get_eq_getElem]
      simpa using this
    · refine ⟨hlen, ?_⟩
      have := @List.findIdx_getElem AItem
        (fun f => decide (f.size < minAreaOf w h m dir.size)) dir.children hlen
      simp only [List.get_eq_getElem]
      simpa using this
    · rw [partition, layoutItems_map_size_item, partItems_of_some hs, List.map_append,
        List.map_map]
      rfl
    · have hsplit := take_drop_size_split dir.children
        (dir.children.findIdx (fun f => decide (f.size < minAreaOf w h m dir.size)))
      omega

def dirEx2 : ADir := ⟨[.file 1 10, .file 1 1], 11, 0, 2, 0⟩

theorem claim2_minimum_area_cutoff_witness :
    ((partition 1 1 4 dirEx2).map (fun s => (s.size, s.item)) =
      [((11 : Nat), (none : Option AItem))]) ∧
    (11 : Nat) - (([] : List AItem).map AItem.size).sum = 11 := by
  have h := (claim2_minimum_area_cutoff 1 1 4 dirEx2 (by rfl)).2 0 (by
    norm_num [dirEx2, minAreaOf, ratToU64, U64MAX, List.findIdx?, AItem.size])
  refine ⟨?_, by simp⟩
  have h3 := h.2.2.1
  simpa [dirEx2] using h3

theorem partition_sizes_sum (w h m : ℚ) (dir : ADir)
    (hsz : dir.size = (dir.children.map AItem.size).sum) :
    ((partition w h m dir).map (fun s => s.size)).sum = dir.size := by
  have hpres := layoutItems_map_size_item (partItems w h m dir) ⟨0, 0, w, h⟩
  have hsum : ((partition w h m dir).map (fun s => s.size)).sum =
      ((partItems w h m dir).map (fun s => s.size)).sum := by
    have := congrArg (fun l => (l.map Prod.fst).sum) hpres
    simpa [List.map_map, partition] using this
  rw [hsum]
  cases hf : dir.children.findIdx? (fun f => decide (f.size < minAreaOf w h m dir.size)) with
  | none =>
      rw [partItems_of_none hf, List.map_map]
      simpa using hsz.symm
  | some i =>
      rw [partItems_of_some hf]
      have hsplit := take_drop_size_split dir.children i
      simp only [List.map_append, List.map_map, List.sum_append]
      have : ((dir.children.take i).map ((fun s : PartitionElement => s.size) ∘
          (fun e => ⟨⟨0, 0, 0, 0⟩, e.size, some e⟩))).sum =
          ((dir.children.take i).map AItem.size).sum := rfl
      rw [this]
      simp only [List.map_cons, List.map_nil, List.sum_cons, List.sum_nil]
      omega

theorem partItems_length_le (w h m : ℚ) (dir : ADir) :
    (partItems w h m dir).length ≤ dir.children.length + 1 := by
  cases hf : dir.children.findIdx? (fun f => decide (f.size < minAreaOf w h m dir.size)) with
  | none =>
      rw [partItems_of_none hf]
      simp
  | some i =>
      rw [partItems_of_some hf]
      simp only [List.length_append, List.length_map, List.length_take, List.length_cons,
        List.length_nil]
      omega

/-- C5: degenerate inputs never fail: partitioning an empty directory
(no children, size 0) yields the empty rectangle list, with no
division-by-zero failure; and with a zero-area box the partitioner still
returns a plain (degenerate) slot list — weights still summing to the
directory size, at most one slot per child plus the aggregate — rather
than an error. -/
theorem claim5_degenerate_inputs (m : ℚ) :
    (∀ w h s1 s2 s3, partition w h m ⟨[], 0, s1, s2, s3⟩ = [])
    ∧ (∀ dir : ADir, dir.size = (dir.children.map AItem.size).sum →
        ((partition 0 0 m dir).map (fun s => s.size)).sum = dir.size ∧
        (partition 0 0 m dir).length ≤ dir.children.length + 1) := by
  constructor
  · intro w h s1 s2 s3
    rw [partition, layoutItems]
    have : partItems w h m ⟨[], 0, s1, s2, s3⟩ = [] := by
      simp [partItems]
    rw [this]
    simp
  · intro dir hsz
    refine ⟨partition_sizes_sum 0 0 m dir hsz, ?_⟩
    rw [partition, layoutItems_length]
    exact partItems_length_le 0 0 m dir

def dirEx5 : ADir := ⟨[.file 1 5], 5, 0, 1, 0⟩

theorem claim5_degenerate_inputs_witness :
    (partition 3 4 1 ⟨[], 0, 0, 0, 0⟩ = []) ∧
    ((partition 0 0 1 dirEx5).map (fun s => s.size)).sum = dirEx5.size ∧
    (partition 0 0 1 dirEx5).length ≤ dirEx5.children.length + 1 := by
  refine ⟨(claim5_degenerate_inputs 1).1 3 4 0 0 0, ?_⟩
  exact (claim5_degenerate_inputs 1).2 dirEx5 (by rfl)

/-! ### Tiling lemmas for the squarified layout -/

theorem Rect.pts_empty_of_w {r : Rect} (hw : r.w ≤ 0) : r.pts = ∅ := by
  ext p
  simp only [Rect.pts, Set.mem_setOf_eq, Set.mem_empty_iff_false, iff_false, not_and]
  intro h1 h2
  exact absurd (lt_of_le_of_lt h1 h2) (by linarith)

theorem Rect.pts_empty_of_h {r : Rect} (hh : r.h ≤ 0) : r.pts = ∅ := by
  ext p
  simp only [Rect.pts, Set.mem_setOf_eq, Set.mem_empty_iff_false, iff_false, not_and]
  intro _ _ h3 h4
  exact absurd (lt_of_le_of_lt h3 h4) (by linarith)

theorem pts_split_x (x y w h t : ℚ) (h0 : 0 ≤ t) (h1 : t ≤ w) :
    Rect.pts ⟨x, y, w, h⟩ = Rect.pts ⟨x, y, t, h⟩ ∪ Rect.pts ⟨x + t, y, w - t, h⟩ := by
  ext p
  simp only [Rect.pts, Set.mem_setOf_eq, Set.mem_union]
  constructor
  · rintro ⟨a, b, c, d⟩
    by_cases hp : p.1 < x + t
    · exact Or.inl ⟨a, hp, c, d⟩
    · exact Or.inr ⟨by linarith, by linarith, c, d⟩
  · rintro (⟨a, b, c, d⟩ | ⟨a, b, c, d⟩) <;>
      exact ⟨by linarith, by linarith, c, d⟩

theorem pts_split_y (x y t e S : ℚ) (he : 0 ≤ e) (hS : 0 ≤ S) :
    Rect.pts ⟨x, y, t, e + S⟩ = Rect.pts ⟨x, y, t, e⟩ ∪ Rect.pts ⟨x, y + e, t, S⟩ := by
  ext p
  simp only [Rect.pts, Set.mem_setOf_eq, Set.mem_union]
  constructor
  · rintro ⟨a, b, c, d⟩
    by_cases hp : p.2 < y + e
    · exact Or.inl ⟨a, b, c, hp⟩
    · exact Or.inr ⟨a, b, by linarith, by linarith⟩
  · rintro (⟨a, b, c, d⟩ | ⟨a, b, c, d⟩) <;>
      exact ⟨a, b, by linarith, by linarith⟩

theorem rectDisjoint_x {x y1 t h1 y2 w2 h2 : ℚ} :
    RectDisjoint ⟨x, y1, t, h1⟩ ⟨x + t, y2, w2, h2⟩ := by
  intro p hp hq
  exact absurd hq.1 (not_le.mpr hp.2.1)

theorem rectDisjoint_y {x1 y t w1 x2 w2 h2 : ℚ} :
    RectDisjoint ⟨x1, y, w1, t⟩ ⟨x2, y + t, w2, h2⟩ := by
  intro p hp hq
  exact absurd hq.2.2.1 (not_le.mpr hp.2.2.2)

theorem cover_append : ∀ (l1 l2 : List Rect), cover (l1 ++ l2) = cover l1 ∪ cover l2
  | [], l2 => by simp [cover]
  | r :: t, l2 => by
      rw [List.cons_append, cover, cover, cover_append t l2, Set.union_assoc]

theorem pts_subset_cover {r : Rect} : ∀ {l : List Rect}, r ∈ l → r.pts ⊆ cover l
  | [], hmem => absurd hmem (List.not_mem_nil r)
  | s :: t, hmem => by
      rcases List.mem_cons.mp hmem with heq | htail
      · subst heq; exact Set.subset_union_left
      · exact Set.Subset.trans (pts_subset_cover htail) Set.subset_union_right

theorem stackV_cover (x t : ℚ) : ∀ (es : List ℚ) (y0 : ℚ), (∀ e ∈ es, 0 ≤ e) →
    cover (stackV x t y0 es) = Rect.pts ⟨x, y0, t, es.sum⟩
  | [], y0, _ => by
      rw [stackV, List.sum_nil, (Rect.pts_empty_of_h (r := ⟨x, y0, t, 0⟩) le_rfl)]
      rfl
  | e :: es, y0, hnn => by
      rw [stackV, List.sum_cons]
      have ih := stackV_cover x t es (y0 + e) (fun a ha => hnn a (List.mem_cons_of_mem e ha))
      rw [cover, ih, pts_split_y x y0 t e es.sum (hnn e (List.mem_cons_self e es))
        (List.sum_nonneg (fun a ha => hnn a (List.mem_cons_of_mem e ha)))]

theorem stackH_cover (y t : ℚ) : ∀ (es : List ℚ) (x0 : ℚ), (∀ e ∈ es, 0 ≤ e) →
    cover (stackH y t x0 es) = Rect.pts ⟨x0, y, es.sum, t⟩
  | [], x0, _ => by
      rw [stackH, List.sum_nil, (Rect.pts_empty_of_w (r := ⟨x0, y, 0, t⟩) le_rfl)]
      rfl
  | e :: es, x0, hnn => by
      rw [stackH, List.sum_cons]
      have ih := stackH_cover y t es (x0 + e) (fun a ha => hnn a (List.mem_cons_of_mem e ha))
      rw [cover, ih, pts_split_x x0 y (e + es.sum) t e (hnn e (List.mem_cons_self e es))
        (by
          have := List.sum_nonneg (fun a ha => hnn a (List.mem_cons_of_mem e ha))
          linarith)]
      have harith : e + es.sum - e = es.sum := by ring
      rw [harith]

theorem stackV_disjoint (x t : ℚ) : ∀ (es : List ℚ) (y0 : ℚ), (∀ e ∈ es, 0 ≤ e) →
    List.Pairwise RectDisjoint (stackV x t y0 es)
  | [], _, _ => List.Pairwise.nil
  | e :: es, y0, hnn => by
      rw [stackV]
      refine List.pairwise_cons.mpr ⟨?_, stackV_disjoint x t es (y0 + e)
        (fun a ha => hnn a (List.mem_cons_of_mem e ha))⟩
      intro r hr p hp hq
      have hsub := pts_subset_cover hr
      rw [stackV_cover x t es (y0 + e) (fun a ha => hnn a (List.mem_cons_of_mem e ha))] at hsub
      exact rectDisjoint_y p hp (hsub hq)

theorem stackH_disjoint (y t : ℚ) : ∀ (es : List ℚ) (x0 : ℚ), (∀ e ∈ es, 0 ≤ e) →
    List.Pairwise RectDisjoint (stackH y t x0 es)
  | [], _, _ => List.Pairwise.nil
  | e :: es, x0, hnn => by
      rw [stackH]
      refine List.pairwise_cons.mpr ⟨?_, stackH_disjoint y t es (x0 + e)
        (fun a ha => hnn a (List.mem_cons_of_mem e ha))⟩
      intro r hr p hp hq
      have hsub := pts_subset_cover hr
      rw [stackH_cover y t es (x0 + e) (fun a ha => hnn a (List.mem_cons_of_mem e ha))] at hsub
      exact rectDisjoint_x p hp (hsub hq)

theorem stackV_areas (x t : ℚ) : ∀ (es : List ℚ) (y0 : ℚ),
    (stackV x t y0 es).map Rect.area = es.map (fun e => t * e)
  | [], _ => rfl
  | e :: es, y0 => by
      rw [stackV, List.map_cons, List.map_cons, stackV_areas x t es (y0 + e)]
      rfl

theorem stackH_areas (y t : ℚ) : ∀ (es : List ℚ) (x0 : ℚ),
    (stackH y t x0 es).map Rect.area = es.map (fun e => e * t)
  | [], _ => rfl
  | e :: es, x0 => by
      rw [stackH, List.map_cons, List.map_cons, stackH_areas y t es (x0 + e)]
      rfl

theorem pts_split_y2 (x y w h t : ℚ) (h0 : 0 ≤ t) (h1 : t ≤ h) :
    Rect.pts ⟨x, y, w, h⟩ = Rect.pts ⟨x, y, w, t⟩ ∪ Rect.pts ⟨x, y + t, w, h - t⟩ := by
  ext p
  simp only [Rect.pts, Set.mem_setOf_eq, Set.mem_union]
  constructor
  · rintro ⟨a, b, c, d⟩
    by_cases hp : p.2 < y + t
    · exact Or.inl ⟨a, b, c, hp⟩
    · exact Or.inr ⟨a, b, by linarith, by linarith⟩
  · rintro (⟨a, b, c, d⟩ | ⟨a, b, c, d⟩) <;>
      exact ⟨a, b, by linarith, by linarith⟩

theorem list_sum_div (l : List ℚ) (c : ℚ) :
    (l.map (fun a => a / c)).sum = l.sum / c := by
  simp only [div_eq_mul_inv]
  have := List.sum_map_mul_right l id c⁻¹
  simpa using this

theorem list_sum_zero_nonneg : ∀ (l : List ℚ), (∀ a ∈ l, 0 ≤ a) → l.sum = 0 →
    ∀ a ∈ l, a = 0
  | [], _, _, a, ha => absurd ha (List.not_mem_nil a)
  | b :: t, hnn, hsum, a, ha => by
      rw [List.sum_cons] at hsum
      have hb : 0 ≤ b := hnn b (List.mem_cons_self b t)
      have ht : 0 ≤ t.sum := List.sum_nonneg (fun x hx => hnn x (List.mem_cons_of_mem b hx))
      rcases List.mem_cons.mp ha with heq | htail
      · subst heq; linarith
      · exact list_sum_zero_nonneg t (fun x hx => hnn x (List.mem_cons_of_mem b hx))
          (by linarith) a htail

theorem layRow_spec (row rest : List ℚ) (r : Rect)
    (hrow : ∀ a ∈ row, 0 ≤ a) (hrest : ∀ a ∈ rest, 0 ≤ a)
    (hw : 0 ≤ r.w) (hh : 0 ≤ r.h)
    (hsum : row.sum + rest.sum = r.area) :
    ((layRow row r).1.map Rect.area = row)
    ∧ (cover (layRow row r).1 ∪ (layRow row r).2.pts = r.pts)
    ∧ (∀ p, p ∈ cover (layRow row r).1 → p ∈ (layRow row r).2.pts → False)
    ∧ List.Pairwise RectDisjoint (layRow row r).1
    ∧ 0 ≤ (layRow row r).2.w ∧ 0 ≤ (layRow row r).2.h
    ∧ rest.sum = (layRow row r).2.area := by
  have hrowsum : 0 ≤ row.sum := List.sum_nonneg hrow
  have hrestsum : 0 ≤ rest.sum := List.sum_nonneg hrest
  rw [Rect.area] at hsum
  by_cases hc : r.h ≤ r.w
  · simp only [layRow, if_pos hc]
    set t := row.sum / r.h with htdef
    have ht0 : 0 ≤ t := div_nonneg hrowsum hh
    have htw : t ≤ r.w := by
      by_cases hh0 : r.h = 0
      · rw [htdef, hh0, div_zero]; exact hw
      · have hhpos : 0 < r.h := lt_of_le_of_ne hh (Ne.symm hh0)
        rw [htdef, div_le_iff hhpos]
        nlinarith
    have hext : ∀ e ∈ row.map (fun a => a / t), 0 ≤ e := by
      intro e he
      obtain ⟨a, ha, rfl⟩ := List.mem_map.mp he
      exact div_nonneg (hrow a ha) ht0
    have hth : t * r.h = row.sum := by
      by_cases hh0 : r.h = 0
      · have hz : row.sum = 0 := by
          have : r.w * r.h = 0 := by rw [hh0, mul_zero]
          linarith
        rw [hh0, mul_zero, hz]
      · exact div_mul_cancel₀ _ hh0
    have hptarea : ∀ a ∈ row, t * (a / t) = a := by
      intro a ha
      by_cases ht : t = 0
      · have hz : row.sum = 0 := by
          by_cases hh0 : r.h = 0
          · have : r.w * r.h = 0 := by rw [hh0, mul_zero]
            linarith
          · have := div_mul_cancel₀ row.sum hh0
            rw [htdef] at ht
            rw [ht] at this
            simpa using this.symm
        have := list_sum_zero_nonneg row hrow hz a ha
        rw [this, ht]
        simp
      · exact mul_div_cancel₀ a ht
    have hstrip : cover (stackV r.x t r.y (row.map (fun a => a / t))) =
        Rect.pts ⟨r.x, r.y, t, r.h⟩ := by
      rw [stackV_cover r.x t _ r.y hext]
      by_cases ht : t = 0
      · rw [Rect.pts_empty_of_w (r := ⟨r.x, r.y, t, (row.map (fun a => a / t)).sum⟩)
            (le_of_eq ht),
          Rect.pts_empty_of_w (r := ⟨r.x, r.y, t, r.h⟩) (le_of_eq ht)]
      · have hrsne : row.sum ≠ 0 := by
          intro hz
          rw [htdef, hz, zero_div] at ht
          exact ht rfl
        have hhne : r.h ≠ 0 := by
          intro hz
          rw [htdef, hz, div_zero] at ht
          exact ht rfl
        have : (row.map (fun a => a / t)).sum = r.h := by
          rw [list_sum_div, htdef]
          field_simp
        rw [this]
    refine ⟨?_, ?_, ?_, ?_, ?_, ?_, ?_⟩
    · rw [stackV_areas, List.map_map]
      have : row.map ((fun e => t * e) ∘ (fun a => a / t)) =
          row.map (fun a => t * (a / t)) := rfl
      rw [this, List.map_congr_left hptarea]
      simp
    · rw [hstrip, ← pts_split_x r.x r.y r.w r.h t ht0 htw]
    · intro p hp hq
      rw [hstrip] at hp
      exact rectDisjoint_x p hp hq
    · exact stackV_disjoint r.x t _ r.y hext
    · simpa using htw
    · exact hh
    · rw [Rect.area]
      have hexp : (r.w - t) * r.h = r.w * r.h - t * r.h := by ring
      rw [hexp, hth]
      linarith
  · simp only [layRow, if_neg hc]
    have hcw : r.w ≤ r.h := le_of_lt (not_le.mp hc)
    set t := row.sum / r.w with htdef
    have ht0 : 0 ≤ t := div_nonneg hrowsum hw
    have hthh : t ≤ r.h := by
      by_cases hw0 : r.w = 0
      · rw [htdef, hw0, div_zero]; exact hh
      · have hwpos : 0 < r.w := lt_of_le_of_ne hw (Ne.symm hw0)
        rw [htdef, div_le_iff hwpos]
        nlinarith
    have hext : ∀ e ∈ row.map (fun a => a / t), 0 ≤ e := by
      intro e he
      obtain ⟨a, ha, rfl⟩ := List.mem_map.mp he
      exact div_nonneg (hrow a ha) ht0
    have hth : t * r.w = row.sum := by
      by_cases hw0 : r.w = 0
      · have hz : row.sum = 0 := by
          have : r.w * r.h = 0 := by rw [hw0, zero_mul]
          linarith
        rw [hw0, mul_zero, hz]
      · exact div_mul_cancel₀ _ hw0
    have hptarea : ∀ a ∈ row, (a / t) * t = a := by
      intro a ha
      by_cases ht : t = 0
      · have hz : row.sum = 0 := by
          by_cases hw0 : r.w = 0
          · have : r.w * r.h = 0 := by rw [hw0, zero_mul]
            linarith
          · have := div_mul_cancel₀ row.sum hw0
            rw [htdef] at ht
            rw [ht] at this
            simpa using this.symm
        have := list_sum_zero_nonneg row hrow hz a ha
        rw [this, ht]
        simp
      · exact div_mul_cancel₀ a ht
    have hstrip : cover (stackH r.y t r.x (row.map (fun a => a / t))) =
        Rect.pts ⟨r.x, r.y, r.w, t⟩ := by
      rw [stackH_cover r.y t _ r.x hext]
      by_cases ht : t = 0
      · rw [Rect.pts_empty_of_h (r := ⟨r.x, r.y, (row.map (fun a => a / t)).sum, t⟩)
            (le_of_eq ht),
          Rect.pts_empty_of_h (r := ⟨r.x, r.y, r.w, t⟩) (le_of_eq ht)]
      · have hrsne : row.sum ≠ 0 := by
          intro hz
          rw [htdef, hz, zero_div] at ht
          exact ht rfl
        have hwne : r.w ≠ 0 := by
          intro hz
          rw [htdef, hz, div_zero] at ht
          exact ht rfl
        have : (row.map (fun a => a / t)).sum = r.w := by
          rw [list_sum_div, htdef]
          field_simp
        rw [this]
    refine ⟨?_, ?_, ?_, ?_, ?_, ?_, ?_⟩
    · rw [stackH_areas, List.map_map]
      have : row.map ((fun e => e * t) ∘ (fun a => a / t)) =
          row.map (fun a => (a / t) * t) := rfl
      rw [this, List.map_congr_left hptarea]
      simp
    · rw [hstrip, ← pts_split_y2 r.x r.y r.w r.h t ht0 hthh]
    · intro p hp hq
      rw [hstrip] at hp
      exact rectDisjoint_y p hp hq
    · exact stackH_disjoint r.y t _ r.x hext
    · exact hw
    · simpa using hthh
    · rw [Rect.area]
      have hexp : r.w * (r.h - t) = r.w * r.h - t * r.w := by ring
      rw [hexp, hth]
      linarith

theorem squarify_spec : ∀ (areas : List ℚ) (r : Rect),
    (∀ a ∈ areas, 0 ≤ a) → 0 ≤ r.w → 0 ≤ r.h → areas.sum = r.area →
    ((squarify areas r).map Rect.area = areas)
    ∧ cover (squarify areas r) = r.pts
    ∧ List.Pairwise RectDisjoint (squarify areas r)
  | [], r, hnn, hw, hh, hsum => by
      rw [squarify]
      refine ⟨rfl, ?_, List.Pairwise.nil⟩
      rw [cover]
      rw [List.sum_nil, Rect.area] at hsum
      rcases mul_eq_zero.mp hsum.symm with h0 | h0
      · exact (Rect.pts_empty_of_w (le_of_eq h0)).symm
      · exact (Rect.pts_empty_of_h (le_of_eq h0)).symm
  | a :: rest, r, hnn, hw, hh, hsum => by
      simp only [squarify]
      have happ : (pickRowAux (min r.w r.h) [a] rest).1 ++
          (pickRowAux (min r.w r.h) [a] rest).2 = a :: rest :=
        pickRowAux_append (min r.w r.h) rest [a]
      have hrownn : ∀ x ∈ (pickRowAux (min r.w r.h) [a] rest).1, 0 ≤ x := by
        intro x hx
        apply hnn
        rw [← happ]
        exact List.mem_append_left _ hx
      have hrestnn : ∀ x ∈ (pickRowAux (min r.w r.h) [a] rest).2, 0 ≤ x := by
        intro x hx
        apply hnn
        rw [← happ]
        exact List.mem_append_right _ hx
      have hsum2 : (pickRowAux (min r.w r.h) [a] rest).1.sum +
          (pickRowAux (min r.w r.h) [a] rest).2.sum = r.area := by
        rw [← List.sum_append, happ]
        exact hsum
      obtain ⟨harea, hcov, hdisj, hpw, hrw, hrh, hrest⟩ :=
        layRow_spec (pickRowAux (min r.w r.h) [a] rest).1
          (pickRowAux (min r.w r.h) [a] rest).2 r hrownn hrestnn hw hh hsum2
      have IH := squarify_spec (pickRowAux (min r.w r.h) [a] rest).2
        (layRow (pickRowAux (min r.w r.h) [a] rest).1 r).2 hrestnn hrw hrh hrest
      refine ⟨?_, ?_, ?_⟩
      · rw [List.map_append, harea, IH.1, happ]
      · rw [cover_append, IH.2.1, hcov]
      · rw [List.pairwise_append]
        refine ⟨hpw, IH.2.2, ?_⟩
        intro r1 hr1 r2 hr2 p hp1 hp2
        apply hdisj p (pts_subset_cover hr1 hp1)
        have hsub := pts_subset_cover hr2
        rw [IH.2.1] at hsub
        exact hsub hp2
termination_by areas r => areas.length
decreasing_by
  have := pickRowAux_snd_length (min r.w r.h) rest [a]
  simp only [List.length_cons]
  omega

theorem layoutItems_placements (items : List PartitionElement) (bounds : Rect) :
    (layoutItems items bounds).map (fun s => s.placement) =
      squarify (items.map (fun i => (i.size : ℚ) /
        ((items.map (fun i => (i.size : ℚ))).sum) * bounds.area)) bounds := by
  rw [layoutItems, List.map_map]
  have h1 : ((fun s : PartitionElement => s.placement) ∘
      (fun p : PartitionElement × Rect => (⟨p.2, p.1.size, p.1.item⟩ : PartitionElement)))
      = (Prod.snd (α := PartitionElement) (β := Rect)) := rfl
  rw [h1]
  exact List.map_snd_zip _ _ (le_of_eq (by rw [squarify_length, List.length_map]))

theorem partItems_sizes_sum (w h m : ℚ) (dir : ADir)
    (hsz : dir.size = (dir.children.map AItem.size).sum) :
    ((partItems w h m dir).map (fun s => s.size)).sum = dir.size := by
  cases hf : dir.children.findIdx? (fun f => decide (f.size < minAreaOf w h m dir.size)) with
  | none =>
      rw [partItems_of_none hf, List.map_map]
      simpa using hsz.symm
  | some i =>
      rw [partItems_of_some hf]
      have hsplit := take_drop_size_split dir.children i
      simp only [List.map_append, List.map_map, List.sum_append]
      have heq : ((dir.children.take i).map ((fun s : PartitionElement => s.size) ∘
          (fun e => ⟨⟨0, 0, 0, 0⟩, e.size, some e⟩))).sum =
          ((dir.children.take i).map AItem.size).sum := rfl
      rw [heq]
      simp only [List.map_cons, List.map_nil, List.sum_cons, List.sum_nil]
      omega

/-- C3: for every output of `partition`, the weights of the rectangles sum
to the directory's size, and the bounds rectangles exactly tile the box:
their areas sum to the box area, their half-open point sets are pairwise
disjoint, and together they cover the box exactly (no gaps, no
overlaps). -/
theorem claim3_weights_and_tiling (w h m : ℚ) (dir : ADir)
    (hsz : dir.size = (dir.children.map AItem.size).sum)
    (hpos : 0 < dir.size) (hw : 0 < w) (hh : 0 < h) :
    ((partition w h m dir).map (fun s => s.size)).sum = dir.size
    ∧ ((partition w h m dir).map (fun s => s.placement.area)).sum = w * h
    ∧ cover ((partition w h m dir).map (fun s => s.placement)) = Rect.pts ⟨0, 0, w, h⟩
    ∧ List.Pairwise RectDisjoint ((partition w h m dir).map (fun s => s.placement)) := by
  have hT : ((partItems w h m dir).map (fun i => (i.size : ℚ))).sum = (dir.size : ℚ) := by
    have h0 : ((partItems w h m dir).map (fun s => s.size)).sum = dir.size :=
      partItems_sizes_sum w h m dir hsz
    calc ((partItems w h m dir).map (fun i => (i.size : ℚ))).sum
        = (((partItems w h m dir).map (fun s => s.size)).map (fun n : Nat => (n : ℚ))).sum := by
          rw [List.map_map]
          rfl
      _ = ((((partItems w h m dir).map (fun s => s.size)).sum : Nat) : ℚ) :=
          (Nat.cast_list_sum _).symm
      _ = (dir.size : ℚ) := by rw [h0]
  have hTpos : (0 : ℚ) < ((partItems w h m dir).map (fun i => (i.size : ℚ))).sum := by
    rw [hT]
    exact_mod_cast hpos
  have hTne : ((partItems w h m dir).map (fun i => (i.size : ℚ))).sum ≠ 0 := ne_of_gt hTpos
  have hAnn : ∀ a ∈ (partItems w h m dir).map (fun i => (i.size : ℚ) /
      ((partItems w h m dir).map (fun i => (i.size : ℚ))).sum *
        (Rect.area ⟨0, 0, w, h⟩)), 0 ≤ a := by
    intro a ha
    obtain ⟨i, _, rfl⟩ := List.mem_map.mp ha
    apply mul_nonneg
    · exact div_nonneg (Nat.cast_nonneg _) (le_of_lt hTpos)
    · rw [Rect.area]
      positivity
  have hAsum : ((partItems w h m dir).map (fun i => (i.size : ℚ) /
      ((partItems w h m dir).map (fun i => (i.size : ℚ))).sum *
        (Rect.area ⟨0, 0, w, h⟩))).sum = Rect.area ⟨0, 0, w, h⟩ := by
    have hrw : (partItems w h m dir).map (fun i => (i.size : ℚ) /
        ((partItems w h m dir).map (fun i => (i.size : ℚ))).sum *
          (Rect.area ⟨0, 0, w, h⟩)) =
        (partItems w h m dir).map (fun i => (i.size : ℚ) *
          ((Rect.area ⟨0, 0, w, h⟩) /
            ((partItems w h m dir).map (fun i => (i.size : ℚ))).sum)) := by
      apply List.map_congr_left
      intro i _
      ring
    rw [hrw, List.sum_map_mul_right]
    exact mul_div_cancel₀ _ hTne
  have hsq := squarify_spec ((partItems w h m dir).map (fun i => (i.size : ℚ) /
      ((partItems w h m dir).map (fun i => (i.size : ℚ))).sum *
        (Rect.area ⟨0, 0, w, h⟩))) ⟨0, 0, w, h⟩ hAnn (le_of_lt hw) (le_of_lt hh) hAsum
  have hplace := layoutItems_placements (partItems w h m dir) ⟨0, 0, w, h⟩
  refine ⟨partition_sizes_sum w h m dir hsz, ?_, ?_, ?_⟩
  · have hcomp : (partition w h m dir).map (fun s => s.placement.area) =
        ((partition w h m dir).map (fun s => s.placement)).map Rect.area := by
      rw [List.map_map]
      rfl
    rw [hcomp, partition, hplace, hsq.1, hAsum, Rect.area]
  · rw [partition, hplace, hsq.2.1]
  · rw [partition, hplace]
    exact hsq.2.2

def dirEx3 : ADir := ⟨[.file 1 100, .file 1 50, .file 1 30], 180, 0, 3, 0⟩

theorem claim3_weights_and_tiling_witness :
    ((partition 10 10 0 dirEx3).map (fun s => s.size)).sum = dirEx3.size
    ∧ ((partition 10 10 0 dirEx3).map (fun s => s.placement.area)).sum = 10 * 10
    ∧ cover ((partition 10 10 0 dirEx3).map (fun s => s.placement)) = Rect.pts ⟨0, 0, 10, 10⟩
    ∧ List.Pairwise RectDisjoint ((partition 10 10 0 dirEx3).map (fun s => s.placement)) :=
  claim3_weights_and_tiling 10 10 0 dirEx3 (by rfl) (by norm_num [dirEx3])
    (by norm_num) (by norm_num)

/-! ### The recursive box construction of the partition view
(src/gui/partition_view.rs, `recursive_box`, lines 249-317) -/

theorem partition_item_mem {w h m : ℚ} {dir : ADir} {s : PartitionElement}
    (hs : s ∈ partition w h m dir) {a : AItem} (ha : s.item = some a) :
    a ∈ dir.children := by
  rw [partition, layoutItems] at hs
  obtain ⟨p, hp, rfl⟩ := List.mem_map.mp hs
  have hmem := (List.of_mem_zip hp).1
  simp only at ha
  cases hf : dir.children.findIdx? (fun f => decide (f.size < minAreaOf w h m dir.size)) with
  | none =>
      rw [partItems_of_none hf] at hmem
      obtain ⟨e, he, heq⟩ := List.mem_map.mp hmem
      have : p.1.item = some e := by rw [← heq]
      rw [this] at ha
      obtain rfl : e = a := by injection ha
      exact he
  | some i =>
      rw [partItems_of_some hf] at hmem
      rcases List.mem_append.mp hmem with h2 | h2
      · obtain ⟨e, he, heq⟩ := List.mem_map.mp h2
        have : p.1.item = some e := by rw [← heq]
        rw [this] at ha
        obtain rfl : e = a := by injection ha
        exact List.mem_of_mem_take he
      · rcases List.mem_cons.mp h2 with heq | habs
        · have : p.1.item = none := by rw [heq]
          rw [this] at ha
          exact absurd ha (by simp)
        · exact absurd habs (List.not_mem_nil _)

/-- `StateBox` from src/gui/partition_view.rs: `branches = some l` models
`StateBoxD::Branched(l)`, `branches = none` models `StateBoxD::Leaf`.  The
presentation-only fields (`name`, `extension`, the global `IDX` counter and
the extension→color map) are omitted: they carry no layout content. -/
inductive SBox where
  | mk (branches : Option (List SBox)) (placement : Rect) (size : Nat)
      (item : Option AItem) : SBox

/-- Placement of a state box. -/
def SBox.placement : SBox → Rect
  | .mk _ p _ _ => p

/-- Size of a state box. -/
def SBox.size : SBox → Nat
  | .mk _ _ s _ => s

/-- `recursive_box` from src/gui/partition_view.rs (lines 249-317): if the
incoming height is below `text_offset * 1.4` return no boxes; otherwise
partition the directory into the box of height
`text_offset.mul_add(-1.4, space.1) = space.1 - 1.4 * text_offset`, shift
every resulting rectangle down by `text_offset * 1.4` (the header strip),
and recurse into the rectangles whose slot references a directory (`1.4`
is exact in this model; the f64 value differs by a relative 2^-52, which
no claim depends on). -/
def recursiveBox (w h m toff : ℚ) (dir : ADir) : List SBox :=
  if h < toff * (7/5) then []
  else
    (partition w (h - toff * (7/5)) m dir).attach.map (fun x =>
      let bounds : Rect := ⟨x.1.placement.x, x.1.placement.y + toff * (7/5),
        x.1.placement.w, x.1.placement.h⟩
      let d : Option (List SBox) :=
        match hx : x.1.item with
        | some (.dir c s ns nf nd) =>
            some (recursiveBox bounds.w bounds.h m toff ⟨c, s, ns, nf, nd⟩)
        | _ => none
      SBox.mk d bounds x.1.size x.1.item)
termination_by sizeOf dir
decreasing_by
  have hmema := partition_item_mem x.2 hx
  have h1 := List.sizeOf_lt_of_mem hmema
  cases dir with
  | mk cs sz ns nf nd =>
      simp only [AItem.dir.sizeOf_spec] at h1
      simp only [ADir.mk.sizeOf_spec] at *
      omega

theorem recursiveBox_of_lt {w h m toff : ℚ} (dir : ADir) (hlt : h < toff * (7/5)) :
    recursiveBox w h m toff dir = [] := by
  rw [recursiveBox, if_pos hlt]

theorem recursiveBox_map_eq {w h m toff : ℚ} (dir : ADir) (hge : ¬ h < toff * (7/5)) :
    (recursiveBox w h m toff dir).map (fun b => (b.placement, b.size)) =
      (partition w (h - toff * (7/5)) m dir).map (fun s =>
        (⟨s.placement.x, s.placement.y + toff * (7/5), s.placement.w,
          s.placement.h⟩, s.size)) := by
  rw [recursiveBox, if_neg hge, List.map_map]
  exact List.attach_map_val (partition w (h - toff * (7/5)) m dir)
    (fun s => ((⟨s.placement.x, s.placement.y + toff * (7/5), s.placement.w,
      s.placement.h⟩ : Rect), s.size))

theorem recursiveBox_length {w h m toff : ℚ} (dir : ADir) (hge : ¬ h < toff * (7/5)) :
    (recursiveBox w h m toff dir).length =
      (partition w (h - toff * (7/5)) m dir).length := by
  have := congrArg List.length (recursiveBox_map_eq (w := w) (m := m) dir hge)
  simpa using this

def dirEx4 : ADir := ⟨[.file 1 100], 100, 0, 1, 0⟩

/-- C4 (counterexample): with label height 10 (header H = 14) and a
100 × 20 rectangle, the remaining height after the header is 6 < H = 14,
yet the directory's rectangle IS subdivided (one box is produced for its
single child): the code's guard compares the incoming height (20 ≥ 14)
against H, not the remaining height. -/
theorem claim4_counterexample :
    ((20 : ℚ) - 10 * (7/5) < 10 * (7/5)) ∧ recursiveBox 100 20 0 10 dirEx4 ≠ [] := by
  refine ⟨by norm_num, ?_⟩
  have hlen : (recursiveBox 100 20 0 10 dirEx4).length =
      (partition 100 (20 - 10 * (7/5)) 0 dirEx4).length :=
    recursiveBox_length dirEx4 (by norm_num)
  have hp : (partition 100 ((20 : ℚ) - 10 * (7/5)) 0 dirEx4).length = 1 := by
    rw [partition, layoutItems_length]
    norm_num [partItems, minAreaOf, ratToU64, dirEx4, List.findIdx?, U64MAX]
  intro hemp
  rw [hemp] at hlen
  rw [hp] at hlen
  simp at hlen

/-- C4 (amended): a header strip of height H = label_height * 1.4 is
reserved at the top and the directory is partitioned into the remaining
rectangle of height (height - H), but the recursion guard compares the
incoming rectangle height against H itself, not the remaining height:
descent into a rectangle of height < H yields no boxes, and whenever
height ≥ H the directory IS partitioned into (height - H) — with every
produced box shifted down by H — even when that remaining height is less
than H. -/
theorem claim4_header_strip_amended :
    (∀ w h m toff (dir : ADir), h < toff * (7/5) → recursiveBox w h m toff dir = [])
    ∧ (∀ w h m toff (dir : ADir), ¬ h < toff * (7/5) →
        (recursiveBox w h m toff dir).map (fun b => (b.placement, b.size)) =
          (partition w (h - toff * (7/5)) m dir).map (fun s =>
            (⟨s.placement.x, s.placement.y + toff * (7/5), s.placement.w,
              s.placement.h⟩, s.size))) :=
  ⟨fun _ _ _ _ dir hlt => recursiveBox_of_lt dir hlt,
    fun _ _ _ _ dir hge => recursiveBox_map_eq dir hge⟩

theorem claim4_header_strip_amended_witness :
    (recursiveBox 5 1 0 1 dirEx4 = []) ∧
    ((recursiveBox 100 20 0 10 dirEx4).map (fun b => (b.placement, b.size)) =
      (partition 100 (20 - 10 * (7/5)) 0 dirEx4).map (fun s =>
        (⟨s.placement.x, s.placement.y + 10 * (7/5), s.placement.w,
          s.placement.h⟩, s.size))) :=
  ⟨claim4_header_strip_amended.1 5 1 0 1 dirEx4 (by norm_num),
    claim4_header_strip_amended.2 100 20 0 10 dirEx4 (by norm_num)⟩
